import Mathlib

/-!
Formal model of the jessquery execution-queue engine and dispatch layer.
The repository ships only its type declarations under src (index.d.ts), so the
runtime components (queue drain loop, dispatch proxy, async normalizer, error
router, collection adapter) are modelled from the specification and from the
JSDoc contracts embedded in index.d.ts, and the documented invariants are
proved against that model.
-/

namespace JessQuery

/-- Modelled from the spec: §3 — a Task is a single deferred unit of work bound
to a target and a named operation, created already bound to its concrete
arguments.  `delay` is the settlement delay of its Deferred Result in
milliseconds (0 for a synchronous task), `fails` says whether it settles as a
rejection, and `writes` are the attribute side effects applied at settlement.
The implementing file is absent from src, which holds only index.d.ts. -/
structure Task where
  opName : String
  args : List String
  delay : Nat
  fails : Bool
  writes : List (String × String)
deriving DecidableEq, Repr

/-- Phase of a trace event: a Task starting, its Deferred Result settling with
a value, or its Deferred Result rejecting. -/
inductive Phase
  | start
  | settle
  | reject
deriving DecidableEq, Repr

/-- A timestamped observation of the drain loop: which operation did what and
which attribute writes became observable at that moment. -/
structure Event where
  time : Nat
  phase : Phase
  opName : String
  writes : List (String × String)
deriving DecidableEq, Repr

/-- An Error Router report: the operation name together with the arguments
passed to it (§4.5: context always includes at least these). -/
structure Report where
  opName : String
  args : List String
deriving DecidableEq, Repr

/-- Modelled from the spec: §4.1 — the settlement event of a Task whose run
started at time `s`.  A failing Task settles as a rejection with no side
effects; otherwise its writes are applied at settlement. -/
def settleEvent (s : Nat) (t : Task) : Event :=
  if t.fails then Event.mk (s + t.delay) Phase.reject t.opName []
  else Event.mk (s + t.delay) Phase.settle t.opName t.writes

/-- Modelled from the spec: §4.1 — the drain loop of a Queue, absent from src.
`drainTrace t0 ts` is the timed event trace of draining the pending Task list
`ts` starting at time `t0`: the head Task starts, the loop suspends until its
Deferred Result settles (after `delay` milliseconds; a rejection when the Task
fails, which is reported and does not abort the loop), and only then does the
next Task start. -/
def drainTrace (t0 : Nat) : List Task → List Event
  | [] => []
  | t :: rest =>
      Event.mk t0 Phase.start t.opName [] ::
      settleEvent t0 t ::
      drainTrace (t0 + t.delay) rest

/-- Modelled from the spec: §4.1 and §4.5 — the reports forwarded to the Error
Router while draining: one report per failing Task, in Queue order, carrying
the operation name and its arguments. -/
def drainReports : List Task → List Report
  | [] => []
  | t :: rest => (if t.fails then [Report.mk t.opName t.args] else []) ++ drainReports rest

/-- The declarative schedule: the time at which the k-th Task of the queue
starts, namely `t0` plus the settlement delays of all earlier Tasks. -/
def startTime (t0 : Nat) (ts : List Task) (k : Nat) : Nat :=
  t0 + ((ts.map Task.delay).take k).sum

/-- Operation names of the start events of a trace, in trace order. -/
def traceStarts (evs : List Event) : List String :=
  evs.filterMap (fun e => if e.phase = Phase.start then some e.opName else none)

/-- Side-effect batches of the settlement events of a trace, in trace order. -/
def traceEffects (evs : List Event) : List (List (String × String)) :=
  evs.filterMap (fun e => if e.phase = Phase.settle then some e.writes else none)

/-- Modelled from the spec: the per-target page state visible at the call
site — the target's pending Queue and the shared DOM attribute store. -/
structure PageState where
  queue : List Task
  attrs : List (String × String)
deriving DecidableEq, Repr

/-- Modelled from the spec: §4.1 enqueue — invoking a queued operation builds
a Task from the call arguments and appends it to the target's Queue; nothing
executes during the caller's synchronous turn (the drain loop only proceeds
between turns, §5). -/
def enqueueTask (s : PageState) (t : Task) : PageState :=
  PageState.mk (s.queue ++ [t]) s.attrs

/-- Building a chain in a single synchronous burst of caller code: each call
appends one Task and returns the proxy. -/
def enqueueChain (s : PageState) (ts : List Task) : PageState :=
  ts.foldl enqueueTask s

/-- An event of the combined event loop, tagged with the index of the Queue it
belongs to. -/
structure QEvent where
  queue : Nat
  ev : Event
deriving DecidableEq, Repr

/-- Modelled from the spec: §5 — two Targets' Queues drain independently and
interleave on the single-threaded event loop; the combined loop trace merges
the two timed traces by timestamp. -/
def mergeTraces : List QEvent → List QEvent → List QEvent
  | [], b => b
  | a, [] => a
  | x :: xs, y :: ys =>
      if x.ev.time ≤ y.ev.time then x :: mergeTraces xs (y :: ys)
      else y :: mergeTraces (x :: xs) ys
termination_by a b => a.length + b.length

/-- Tag every event of a trace with its Queue index. -/
def tagged (i : Nat) (evs : List Event) : List QEvent :=
  evs.map (QEvent.mk i)

/-- The events of Queue `i` inside a combined event-loop trace. -/
def projQueue (i : Nat) (m : List QEvent) : List Event :=
  (m.filter (fun q => q.queue == i)).map QEvent.ev

/-- The operation names the Dispatch Proxy defines: the forty wrapper methods
the DomProxy type of src/index.d.ts declares (all also declared on
DomProxyCollection, which adds no further operations). -/
def definedOps : List String :=
  ["on", "once", "off", "delegate", "html", "sanitize", "text", "val", "css",
   "addStylesheet", "addClass", "removeClass", "toggleClass", "set", "unset",
   "toggle", "data", "attach", "cloneTo", "moveTo", "become", "purge", "send",
   "fromJSON", "fromHTML", "fromStream", "do", "defer", "transition", "wait",
   "next", "prev", "first", "last", "parent", "ancestor", "pick", "pickAll",
   "kids", "siblings"]

/-- The context-switch operations: per src/index.d.ts they switch the proxy's
target in the middle of a chain and throw when the proxy is fixed. -/
def contextSwitchOps : List String :=
  ["next", "prev", "first", "last", "parent", "ancestor", "pick", "pickAll",
   "kids", "siblings"]

/-- The possible outcomes of a member access on the Dispatch Proxy. -/
inductive MemberAccess
  | queuedOp (opName : String)
  | nativeMember (v : String)
  | unknownOpError (name : String)
deriving DecidableEq, Repr

/-- Modelled from the spec: §4.2 — the proxy get handler (implementation
absent from src).  `target` gives the members of the underlying native
element, `mk` builds the Task a defined operation would enqueue, and `q` is
the current Queue.  A defined name yields a queued operation with the Task
appended; any other name falls through to the native member unchanged, with
the Queue untouched. -/
def proxyGet (target : String → String) (mk : String → Task) (q : List Task)
    (name : String) : MemberAccess × List Task :=
  if name ∈ definedOps then (MemberAccess.queuedOp name, q ++ [mk name])
  else (MemberAccess.nativeMember (target name), q)

/-- The error taxonomy surfaced synchronously at the call site (§7). -/
inductive JessError
  | immutableTargetError
deriving DecidableEq, Repr

/-- The result of calling a defined operation on the proxy, together with the
state of the original proxy's Queue after the call. -/
inductive CallResult
  | threw (e : JessError) (q : List Task)
  | sameProxy (q : List Task)
  | newProxy (target : String) (q : List Task)
deriving DecidableEq, Repr

/-- Modelled from the spec: §4.2 and §7 — calling a defined operation.  A
context-switch operation on a fixed proxy throws `immutableTargetError`
synchronously, before any Task is built or enqueued (the Queue is returned
unchanged); on a non-fixed proxy it returns a new proxy over the resolved
target, also without touching the current Queue.  Every other defined
operation enqueues its Task and returns the same proxy. -/
def invokeOp (fixed : Bool) (q : List Task) (op : String) (mk : Task) : CallResult :=
  if op ∈ contextSwitchOps then
    if fixed then CallResult.threw JessError.immutableTargetError q
    else CallResult.newProxy op q
  else CallResult.sameProxy (q ++ [mk])

/-- Settlement outcome of a Deferred Result. -/
inductive Outcome
  | resolved (v : Option String)
  | rejected (e : String)
deriving DecidableEq, Repr

/-- A settled Deferred Result: when it settled and how. -/
structure Settlement where
  time : Nat
  outcome : Outcome
deriving DecidableEq, Repr

/-- How a function handed to the Async Normalizer uses its resolve/reject
callbacks: it resolves at some time, rejects at some time, throws
synchronously, or calls neither. -/
inductive FnBehavior
  | resolvesAt (t : Nat) (v : Option String)
  | rejectsAt (t : Nat) (e : String)
  | throwsSync (e : String)
  | silent
deriving DecidableEq, Repr

/-- A report routed to the Error Router by the Async Normalizer. -/
structure ErrReport where
  error : String
  context : List (String × String)
deriving DecidableEq, Repr

/-- The default timeout of promisify, documented in src/index.d.ts
(`@param {number} [timeout=5000]`). -/
def defaultPromisifyTimeout : Nat := 5000

/-- The context seen by the Error Router for a normalizer failure: the
caller-supplied meta extended with `operation: 'promisify'` (§4.4). -/
def promisifyCtx (meta : List (String × String)) : List (String × String) :=
  meta ++ [("operation", "promisify")]

/-- Modelled from the spec: §4.4 and §9 — the Async Normalizer (promisify in
index.d.ts; implementation absent from src).  `promisifyRun` gives the
settlement of the Deferred Result returned by the normalized function,
together with the reports routed to the Error Router:
 * `fn` calls neither callback: the result auto-resolves with no value when
   the timeout (default 5000 ms) elapses, emitting no report;
 * `fn` resolves: the result resolves with that value, unless the auto-resolve
   timeout fired first, in which case the earlier auto-resolution stands;
 * `fn` rejects, or throws synchronously: one report `(error, meta extended
   with operation promisify)` is routed and the result settles rejected. -/
def promisifyRun (fn : FnBehavior) (timeoutMs : Option Nat)
    (meta : List (String × String)) : Settlement × List ErrReport :=
  let tms := timeoutMs.getD defaultPromisifyTimeout
  match fn with
  | FnBehavior.silent => (Settlement.mk tms (Outcome.resolved none), [])
  | FnBehavior.resolvesAt t v =>
      if t < tms then (Settlement.mk t (Outcome.resolved v), [])
      else (Settlement.mk tms (Outcome.resolved none), [])
  | FnBehavior.rejectsAt t e =>
      (Settlement.mk t (Outcome.rejected e), [ErrReport.mk e (promisifyCtx meta)])
  | FnBehavior.throwsSync e =>
      (Settlement.mk 0 (Outcome.rejected e), [ErrReport.mk e (promisifyCtx meta)])

/-- Applying one attribute write to the attribute store. -/
def applyWrite (attrs : List (String × String)) (w : String × String) :
    List (String × String) :=
  attrs.filter (fun kv => kv.1 != w.1) ++ [w]

/-- The attribute store after applying the writes of a trace in order. -/
def attrsAfter (evs : List Event) : List (String × String) :=
  ((evs.map Event.writes).flatten).foldl applyWrite []

/-- The attribute store observable at time `T`: only the writes of events that
have happened by then are applied. -/
def attrsAt (evs : List Event) (T : Nat) : List (String × String) :=
  attrsAfter (evs.filter (fun e => decide (e.time ≤ T)))

/-- Reading an attribute from the store. -/
def getAttr (attrs : List (String × String)) (k : String) : Option String :=
  (attrs.find? (fun kv => kv.1 == k)).map Prod.snd

/-- The Task built by `set` (setAttribute): synchronous, writes one attribute. -/
def setAttrTask (k v : String) : Task := Task.mk "set" [k, v] 0 false [(k, v)]

/-- The Task built by `wait ms`: a timer-backed Deferred Result, no effects. -/
def waitTask (ms : Nat) : Task := Task.mk "wait" [] ms false []

/-- The three-operation chain of the end-to-end queue scenario. -/
def endToEndChain : List Task :=
  [setAttrTask "x" "1", waitTask 50, setAttrTask "x" "2"]

/-- Modelled from the spec: §5 — the Task a defer call enqueues: the deferred
function runs as its effects when the Task's turn arrives. -/
def deferTask (w : List (String × String)) : Task := Task.mk "defer" [] 0 false w

/-- The match policy of the collection become adapter. -/
inductive MatchPolicy
  | cycle
  | remove
deriving DecidableEq, Repr

/-- What happens to one member of a collection under become. -/
inductive BecomeOutcome
  | replacedWith (r : String)
  | removed
deriving DecidableEq, Repr

/-- Modelled from the spec: §4.3 — the `cycle` match policy of the collection
become adapter (implementation absent from src): walk the members, consuming
the replacement list and repeating it from the start whenever it runs out. -/
def cycleAssign (orig : List String) : List String → List String → List (String × String)
  | _, [] => []
  | [], m :: ms =>
      match orig with
      | [] => []
      | r :: rs => (m, r) :: cycleAssign orig rs ms
  | r :: rs, m :: ms => (m, r) :: cycleAssign orig rs ms

/-- Modelled from the spec: §4.3 — the `remove` match policy: members are
paired with the replacements positionally; a member without a corresponding
replacement is removed from the DOM instead of replaced. -/
def removeAssign : List String → List String → List (String × BecomeOutcome)
  | _, [] => []
  | [], m :: ms => (m, BecomeOutcome.removed) :: removeAssign [] ms
  | r :: rs, m :: ms => (m, BecomeOutcome.replacedWith r) :: removeAssign rs ms

/-- Modelled from the spec: §4.3 collection become — the fate of each member
of the collection, in member order, under the given match policy. -/
def become (members reps : List String) : MatchPolicy → List (String × BecomeOutcome)
  | MatchPolicy.cycle =>
      (cycleAssign reps reps members).map (fun p => (p.1, BecomeOutcome.replacedWith p.2))
  | MatchPolicy.remove => removeAssign reps members

/-- Modelled from the spec: the DOM fragment visible to the move adapter — an
association of parent ids to their ordered child lists. -/
abbrev Dom := List (String × List String)

/-- The parent ids of a DOM fragment. -/
def domKeys (d : Dom) : List String := d.map Prod.fst

/-- How many times an element occurs as a child anywhere in the fragment. -/
def domCount (e : String) (d : Dom) : Nat := (d.map (fun pc => pc.2.count e)).sum

/-- The children of parent `p` in the fragment. -/
def childrenOf (p : String) (d : Dom) : List String :=
  (d.filterMap (fun pc => if pc.1 = p then some pc.2 else none)).flatten

/-- Modelled from the spec: moving an element first detaches it from every
child list it occupies (an element lives in at most one place). -/
def detach (e : String) (d : Dom) : Dom :=
  d.map (fun pc => (pc.1, pc.2.filter (fun c => c != e)))

/-- Modelled from the spec: native appendChild semantics — the element is
detached from its current location and appended to the children of `p`. -/
def appendChild (p e : String) (d : Dom) : Dom :=
  (detach e d).map (fun pc => if pc.1 = p then (pc.1, pc.2 ++ [e]) else pc)

/-- Modelled from the spec: JSDoc of DomProxy.moveTo and
DomProxyCollection.moveTo in src/index.d.ts — with the `all` option the
element is moved to each matching parent in turn (so it ends up at the last
one, since an element can only be moved to one place at a time). -/
def moveToAll (e : String) (parents : List String) (d : Dom) : Dom :=
  parents.foldl (fun acc q => appendChild q e acc) d

/-- Collection moveTo: every member of the collection is moved in turn. -/
def collectionMoveTo (es : List String) (parents : List String) (d : Dom) : Dom :=
  es.foldl (fun acc e => moveToAll e parents acc) d

theorem startTime_zero (t0 : Nat) (ts : List Task) : startTime t0 ts 0 = t0 := by
  simp [startTime]

theorem startTime_cons_succ (t0 : Nat) (t : Task) (ts : List Task) (k : Nat) :
    startTime t0 (t :: ts) (k + 1) = startTime (t0 + t.delay) ts k := by
  simp [startTime, Nat.add_assoc]

theorem startTime_succ_get (ts : List Task) :
    ∀ (t0 k : Nat) (t : Task), ts.get? k = some t →
      startTime t0 ts (k + 1) = startTime t0 ts k + t.delay := by
  induction ts with
  | nil => intro t0 k t h; simp at h
  | cons u us ih =>
    intro t0 k t h
    cases k with
    | zero =>
      simp at h
      subst h
      simp [startTime_cons_succ, startTime_zero]
    | succ k' =>
      rw [startTime_cons_succ, startTime_cons_succ]
      exact ih (t0 + u.delay) k' t (by simpa using h)

theorem drainTrace_length (ts : List Task) : ∀ t0, (drainTrace t0 ts).length = 2 * ts.length := by
  induction ts with
  | nil => intro t0; rfl
  | cons u us ih =>
    intro t0
    simp [drainTrace, ih (t0 + u.delay)]
    omega

theorem drainTrace_get_start (ts : List Task) :
    ∀ (t0 k : Nat) (t : Task), ts.get? k = some t →
      (drainTrace t0 ts).get? (2 * k)
        = some (Event.mk (startTime t0 ts k) Phase.start t.opName []) := by
  induction ts with
  | nil => intro t0 k t h; simp at h
  | cons u us ih =>
    intro t0 k t h
    cases k with
    | zero =>
      simp at h
      subst h
      simp [drainTrace, startTime_zero]
    | succ k' =>
      have h2 : 2 * (k' + 1) = 2 * k' + 1 + 1 := by omega
      rw [h2]
      simp only [drainTrace, List.get?_cons_succ]
      rw [startTime_cons_succ]
      exact ih (t0 + u.delay) k' t (by simpa using h)

theorem drainTrace_get_settle (ts : List Task) :
    ∀ (t0 k : Nat) (t : Task), ts.get? k = some t →
      (drainTrace t0 ts).get? (2 * k + 1)
        = some (settleEvent (startTime t0 ts k) t) := by
  induction ts with
  | nil => intro t0 k t h; simp at h
  | cons u us ih =>
    intro t0 k t h
    cases k with
    | zero =>
      simp at h
      subst h
      simp [drainTrace, startTime_zero]
    | succ k' =>
      have h2 : 2 * (k' + 1) + 1 = 2 * k' + 1 + 1 + 1 := by omega
      rw [h2]
      simp only [drainTrace, List.get?_cons_succ]
      rw [startTime_cons_succ]
      exact ih (t0 + u.delay) k' t (by simpa using h)

theorem traceStarts_drainTrace (ts : List Task) :
    ∀ t0, traceStarts (drainTrace t0 ts) = ts.map Task.opName := by
  induction ts with
  | nil => intro t0; rfl
  | cons u us ih =>
    intro t0
    by_cases hf : u.fails
    · simp [drainTrace, traceStarts, settleEvent, hf, ← ih (t0 + u.delay)]
    · simp [drainTrace, traceStarts, settleEvent, hf, ← ih (t0 + u.delay)]

theorem traceEffects_drainTrace (ts : List Task) :
    ∀ t0, traceEffects (drainTrace t0 ts)
      = (ts.filter (fun t => !t.fails)).map Task.writes := by
  induction ts with
  | nil => intro t0; rfl
  | cons u us ih =>
    intro t0
    by_cases hf : u.fails
    · simp [drainTrace, traceEffects, settleEvent, hf, ← ih (t0 + u.delay)]
    · simp [drainTrace, traceEffects, settleEvent, hf, ← ih (t0 + u.delay)]

theorem settleEvent_time (s : Nat) (t : Task) : (settleEvent s t).time = s + t.delay := by
  by_cases hf : t.fails <;> simp [settleEvent, hf]

/-- C1: for every sequence of queued Tasks on a single target's Queue, the
drain trace starts the Tasks in exactly the order enqueued (FIFO) and applies
their side effects in that order; the k-th Task occupies trace positions 2k
(start) and 2k+1 (settlement), so no other Task of the Queue runs between a
Task's start and its settlement (at most one Task in flight), and Task k+1's
start time is never earlier than Task k's settlement time, for arbitrary
settlement delays. -/
theorem queue_fifo_single_inflight (t0 : Nat) (ts : List Task) :
    traceStarts (drainTrace t0 ts) = ts.map Task.opName
  ∧ traceEffects (drainTrace t0 ts) = (ts.filter (fun t => !t.fails)).map Task.writes
  ∧ (drainTrace t0 ts).length = 2 * ts.length
  ∧ ∀ (k : Nat) (t : Task), ts.get? k = some t →
      (drainTrace t0 ts).get? (2 * k)
          = some (Event.mk (startTime t0 ts k) Phase.start t.opName [])
    ∧ (drainTrace t0 ts).get? (2 * k + 1)
          = some (settleEvent (startTime t0 ts k) t)
    ∧ (settleEvent (startTime t0 ts k) t).time ≤ startTime t0 ts (k + 1) := by
  refine ⟨traceStarts_drainTrace ts t0, traceEffects_drainTrace ts t0,
    drainTrace_length ts t0, ?_⟩
  intro k t h
  refine ⟨drainTrace_get_start ts t0 k t h, drainTrace_get_settle ts t0 k t h, ?_⟩
  rw [settleEvent_time, startTime_succ_get ts t0 k t h]

/-- Concrete check of C1 on a two-task queue whose first task is synchronous
and whose second task is asynchronous with a 50 ms settlement delay. -/
theorem queue_fifo_single_inflight_witness :
    (drainTrace 0 [Task.mk "set" ["x", "1"] 0 false [("x", "1")], Task.mk "wait" [] 50 false []]).get? 0
        = some (Event.mk (startTime 0 [Task.mk "set" ["x", "1"] 0 false [("x", "1")], Task.mk "wait" [] 50 false []] 0) Phase.start "set" [])
  ∧ (drainTrace 0 [Task.mk "set" ["x", "1"] 0 false [("x", "1")], Task.mk "wait" [] 50 false []]).get? 1
        = some (settleEvent (startTime 0 [Task.mk "set" ["x", "1"] 0 false [("x", "1")], Task.mk "wait" [] 50 false []] 0) (Task.mk "set" ["x", "1"] 0 false [("x", "1")]))
  ∧ (settleEvent (startTime 0 [Task.mk "set" ["x", "1"] 0 false [("x", "1")], Task.mk "wait" [] 50 false []] 0) (Task.mk "set" ["x", "1"] 0 false [("x", "1")])).time
        ≤ startTime 0 [Task.mk "set" ["x", "1"] 0 false [("x", "1")], Task.mk "wait" [] 50 false []] 1 :=
  (queue_fifo_single_inflight 0
    [Task.mk "set" ["x", "1"] 0 false [("x", "1")], Task.mk "wait" [] 50 false []]).2.2.2 0
    (Task.mk "set" ["x", "1"] 0 false [("x", "1")]) rfl

theorem drainReports_eq (ts : List Task) :
    drainReports ts
      = (ts.filter (fun t => t.fails)).map (fun t => Report.mk t.opName t.args) := by
  induction ts with
  | nil => rfl
  | cons u us ih =>
    by_cases hf : u.fails <;> simp [drainReports, hf, ih]

theorem enqueueChain_eq (ts : List Task) :
    ∀ s : PageState, enqueueChain s ts = PageState.mk (s.queue ++ ts) s.attrs := by
  induction ts with
  | nil => intro s; simp [enqueueChain]
  | cons u us ih =>
    intro s
    show enqueueChain (enqueueTask s u) us = _
    rw [ih (enqueueTask s u)]
    simp [enqueueTask]

theorem filter_mergeTraces (p : QEvent → Bool) :
    ∀ (A B : List QEvent), (∀ a ∈ A, p a = false) → (∀ b ∈ B, p b = true) →
      (mergeTraces A B).filter p = B := by
  intro A
  induction A with
  | nil =>
    intro B hA hB
    simpa [mergeTraces] using List.filter_eq_self.mpr hB
  | cons x xs ih =>
    intro B
    induction B with
    | nil =>
      intro hA hB
      rw [show mergeTraces (x :: xs) [] = x :: xs from by rw [mergeTraces] <;> simp]
      exact List.filter_eq_nil_iff.mpr (fun a ha => by simp [hA a ha])
    | cons y ys ihB =>
      intro hA hB
      rw [show mergeTraces (x :: xs) (y :: ys)
            = if x.ev.time ≤ y.ev.time then x :: mergeTraces xs (y :: ys)
              else y :: mergeTraces (x :: xs) ys from by rw [mergeTraces]]
      by_cases hxy : x.ev.time ≤ y.ev.time
      · rw [if_pos hxy, List.filter_cons_of_neg (by simp [hA x (by simp)])]
        exact ih (y :: ys) (fun a ha => hA a (by simp [ha])) hB
      · rw [if_neg hxy, List.filter_cons_of_pos (hB y (by simp))]
        rw [ihB (fun a ha => hA a ha) (fun b hb => hB b (by simp [hb]))]

theorem projQueue_mergeTraces (A B : List Event) :
    projQueue 1 (mergeTraces (tagged 0 A) (tagged 1 B)) = B := by
  rw [projQueue, filter_mergeTraces _ (tagged 0 A) (tagged 1 B)
      (by intro a ha; simp [tagged] at ha; obtain ⟨e, _, rfl⟩ := ha; rfl)
      (by intro b hb; simp [tagged] at hb; obtain ⟨e, _, rfl⟩ := hb; rfl)]
  rw [tagged, List.map_map, show QEvent.ev ∘ QEvent.mk 1 = id from rfl, List.map_id]

/-- C2: a failing Task is forwarded to the Error Router with its context (one
report per failing Task, carrying the operation name and arguments), the Queue
still starts every Task in order (a failed Task never prevents subsequent
Tasks from running), chain building at the call site only appends the Tasks
and returns the proxy with no synchronous effect, a queued-operation call
never throws at the call site, and the events of a sibling Queue on the shared
event loop are exactly its own drain trace, unaffected by this Queue's
failures. -/
theorem task_failure_isolated (t0 : Nat) (ts : List Task) (s : PageState) :
    drainReports ts
        = (ts.filter (fun t => t.fails)).map (fun t => Report.mk t.opName t.args)
  ∧ (∀ (k : Nat) (t : Task), ts.get? k = some t →
      (drainTrace t0 ts).get? (2 * k)
        = some (Event.mk (startTime t0 ts k) Phase.start t.opName []))
  ∧ enqueueChain s ts = PageState.mk (s.queue ++ ts) s.attrs
  ∧ (∀ (op : String) (mk : Task) (e : JessError) (q' : List Task),
      invokeOp false s.queue op mk ≠ CallResult.threw e q')
  ∧ ∀ us : List Task,
      projQueue 1 (mergeTraces (tagged 0 (drainTrace t0 ts)) (tagged 1 (drainTrace t0 us)))
        = drainTrace t0 us := by
  refine ⟨drainReports_eq ts, ?_, enqueueChain_eq ts s, ?_, ?_⟩
  · intro k t h
    exact drainTrace_get_start ts t0 k t h
  · intro op mk e q'
    by_cases hop : op ∈ contextSwitchOps <;> simp [invokeOp, hop]
  · intro us
    exact projQueue_mergeTraces (drainTrace t0 ts) (drainTrace t0 us)

/-- Concrete check of C2: a queue whose first task fails still starts its
second task, the failure is reported with its context, and the sibling queue's
trace is untouched. -/
theorem task_failure_isolated_witness :
    drainReports [Task.mk "css" ["color"] 0 true [], Task.mk "text" ["hi"] 0 false []]
        = ([Task.mk "css" ["color"] 0 true [], Task.mk "text" ["hi"] 0 false []].filter
            (fun t => t.fails)).map (fun t => Report.mk t.opName t.args)
  ∧ (drainTrace 0 [Task.mk "css" ["color"] 0 true [], Task.mk "text" ["hi"] 0 false []]).get? 2
      = some (Event.mk
          (startTime 0 [Task.mk "css" ["color"] 0 true [], Task.mk "text" ["hi"] 0 false []] 1)
          Phase.start "text" [])
  ∧ projQueue 1 (mergeTraces
        (tagged 0 (drainTrace 0 [Task.mk "css" ["color"] 0 true [], Task.mk "text" ["hi"] 0 false []]))
        (tagged 1 (drainTrace 0 [Task.mk "wait" [] 5 false []])))
      = drainTrace 0 [Task.mk "wait" [] 5 false []] := by
  have h := task_failure_isolated 0
    [Task.mk "css" ["color"] 0 true [], Task.mk "text" ["hi"] 0 false []]
    (PageState.mk [] [])
  exact ⟨h.1, h.2.1 1 (Task.mk "text" ["hi"] 0 false []) rfl,
    h.2.2.2.2 [Task.mk "wait" [] 5 false []]⟩

/-- C3: a member access whose name is not a defined operation falls through to
the corresponding member of the underlying native target unchanged, with no
Task queued — exactly as a direct native access — and no member access ever
produces an unknown-operation error. -/
theorem fallthrough_native (target : String → String) (mk : String → Task)
    (q : List Task) (name : String) :
    (name ∉ definedOps →
      proxyGet target mk q name = (MemberAccess.nativeMember (target name), q))
  ∧ ∀ m : String, (proxyGet target mk q name).1 ≠ MemberAccess.unknownOpError m := by
  constructor
  · intro h
    simp [proxyGet, h]
  · intro m
    by_cases h : name ∈ definedOps <;> simp [proxyGet, h]

/-- Concrete check of C3: accessing `style`, which is no defined operation,
returns the native member with the Queue untouched. -/
theorem fallthrough_native_witness :
    proxyGet (fun n => String.append "native:" n) (fun n => Task.mk n [] 0 false []) [] "style"
      = (MemberAccess.nativeMember (String.append "native:" "style"), []) :=
  (fallthrough_native (fun n => String.append "native:" n)
    (fun n => Task.mk n [] 0 false []) [] "style").1 (by decide)

/-- C4: on a proxy constructed with fixed = true, calling any context-switch
operation (next, prev, first, last, parent, ancestor, pick, pickAll, kids,
siblings) throws `immutableTargetError` synchronously with the Queue returned
unchanged — before any Task is built or enqueued; on a proxy with fixed =
false or omitted, no call ever throws this error. -/
theorem fixed_immutable_target (q : List Task) (op : String) (mk : Task) :
    (op ∈ contextSwitchOps →
      invokeOp true q op mk = CallResult.threw JessError.immutableTargetError q)
  ∧ ∀ (e : JessError) (q' : List Task), invokeOp false q op mk ≠ CallResult.threw e q' := by
  constructor
  · intro h
    simp [invokeOp, h]
  · intro e q'
    by_cases h : op ∈ contextSwitchOps <;> simp [invokeOp, h]

/-- Concrete check of C4: `parent` on a fixed proxy throws synchronously and
leaves the Queue empty as it was. -/
theorem fixed_immutable_target_witness :
    invokeOp true [] "parent" (Task.mk "parent" [] 0 false [])
      = CallResult.threw JessError.immutableTargetError [] :=
  (fixed_immutable_target [] "parent" (Task.mk "parent" [] 0 false [])).1 (by decide)

/-- C5: a normalized function that calls neither resolve nor reject yields a
Deferred Result that auto-resolves with no value after the timeout — which
defaults to 5000 ms when omitted — and this auto-resolution routes no report
to the Error Router. -/
theorem promisify_timeout_autoresolves (meta : List (String × String)) (tms : Nat) :
    promisifyRun FnBehavior.silent none meta
        = (Settlement.mk 5000 (Outcome.resolved none), [])
  ∧ promisifyRun FnBehavior.silent (some tms) meta
        = (Settlement.mk tms (Outcome.resolved none), [])
  ∧ defaultPromisifyTimeout = 5000 :=
  ⟨rfl, rfl, rfl⟩

/-- C6: any call to reject, and any synchronous throw, inside a function
normalized by promisify routes exactly one report to the Error Router, whose
context is the caller-supplied meta extended with operation 'promisify', and
the Deferred Result settles as rejected. -/
theorem promisify_reject_routes_once (t : Nat) (e : String)
    (timeoutMs : Option Nat) (meta : List (String × String)) :
    promisifyRun (FnBehavior.rejectsAt t e) timeoutMs meta
        = (Settlement.mk t (Outcome.rejected e),
           [ErrReport.mk e (meta ++ [("operation", "promisify")])])
  ∧ promisifyRun (FnBehavior.throwsSync e) timeoutMs meta
        = (Settlement.mk 0 (Outcome.rejected e),
           [ErrReport.mk e (meta ++ [("operation", "promisify")])]) :=
  ⟨rfl, rfl⟩

theorem drainTrace_time_ge (ts : List Task) :
    ∀ (t0 : Nat) (e : Event), e ∈ drainTrace t0 ts → t0 ≤ e.time := by
  induction ts with
  | nil => intro t0 e h; simp [drainTrace] at h
  | cons u us ih =>
    intro t0 e h
    simp only [drainTrace, List.mem_cons] at h
    rcases h with h | h | h
    · subst h; simp
    · subst h; rw [settleEvent_time]; omega
    · exact Nat.le_trans (Nat.le_add_right t0 u.delay) (ih (t0 + u.delay) e h)

theorem attrsAt_before_drain (t0 T : Nat) (ts : List Task) (hT : T < t0) :
    attrsAt (drainTrace t0 ts) T = [] := by
  have h : (drainTrace t0 ts).filter (fun e => decide (e.time ≤ T)) = [] :=
    List.filter_eq_nil_iff.mpr (fun e he => by
      have := drainTrace_time_ge ts t0 e he
      simp only [decide_eq_true_eq]
      omega)
  rw [attrsAt, h]
  rfl

/-- C7: all Tasks of a chain invoked in a single synchronous burst are
enqueued before any executes — enqueuing only appends to the Queue and never
changes the attribute store, and every drain event happens at or after the
drain start time, so no queued side effect is observable before the caller's
turn ends; concretely, for the chain
[setAttribute("x","1"), wait(50), setAttribute("x","2")], reading the
attribute right after enqueue yields nothing, and at 60 ms it reads "2". -/
theorem burst_enqueues_before_execution (s : PageState) (ts : List Task) (t0 T : Nat) :
    (enqueueChain s ts).queue = s.queue ++ ts
  ∧ (enqueueChain s ts).attrs = s.attrs
  ∧ (T < t0 → attrsAt (drainTrace t0 ts) T = [])
  ∧ getAttr (enqueueChain (PageState.mk [] []) endToEndChain).attrs "x" = none
  ∧ getAttr (attrsAt (drainTrace 0 endToEndChain) 60) "x" = some "2" := by
  refine ⟨?_, ?_, ?_, rfl, rfl⟩
  · rw [enqueueChain_eq]
  · rw [enqueueChain_eq]
  · intro h
    exact attrsAt_before_drain t0 T ts h

/-- Concrete check of C7: with the caller's synchronous turn ending at time 5,
nothing is observable at time 0. -/
theorem burst_enqueues_before_execution_witness :
    attrsAt (drainTrace 5 endToEndChain) 0 = [] :=
  (burst_enqueues_before_execution (PageState.mk [] []) endToEndChain 5 0).2.2.1 (by decide)

theorem sum_take_le (l : List Nat) (k : Nat) : (l.take k).sum ≤ l.sum := by
  conv_rhs => rw [← List.take_append_drop k l]
  rw [List.sum_append]
  omega

theorem startTime_front (t0 : Nat) (ts rest : List Task) (k : Nat) (hk : k ≤ ts.length) :
    startTime t0 (ts ++ rest) k = startTime t0 ts k := by
  rw [startTime, startTime, List.map_append, List.take_append_eq_append_take,
    show k - (ts.map Task.delay).length = 0 from by simp; omega]
  simp

theorem startTime_append (t0 : Nat) (ts rest : List Task) :
    startTime t0 (ts ++ rest) ts.length = t0 + (ts.map Task.delay).sum := by
  rw [startTime_front t0 ts rest ts.length (Nat.le_refl _), startTime]
  rw [show (ts.map Task.delay).take ts.length = ts.map Task.delay from by simp]

/-- C8: defer captures a barrier against the Queue's length at call time: with
call-time pending list ts, the deferred Task occupies trace position 2·|ts|
and starts at t0 plus the total delay of ts; every Task present at call time
settles earlier in the trace and no later in time; and Tasks us enqueued by
chains built later leave the deferred Task's start time unchanged. -/
theorem defer_captured_barrier (t0 : Nat) (ts us : List Task) (w : List (String × String)) :
    (drainTrace t0 (ts ++ deferTask w :: us)).get? (2 * ts.length)
        = some (Event.mk (t0 + (ts.map Task.delay).sum) Phase.start "defer" [])
  ∧ (∀ (k : Nat) (t : Task), ts.get? k = some t →
        (drainTrace t0 (ts ++ deferTask w :: us)).get? (2 * k + 1)
            = some (settleEvent (startTime t0 ts k) t)
      ∧ (settleEvent (startTime t0 ts k) t).time ≤ t0 + (ts.map Task.delay).sum)
  ∧ startTime t0 (ts ++ deferTask w :: us) ts.length
        = startTime t0 (ts ++ [deferTask w]) ts.length := by
  refine ⟨?_, ?_, ?_⟩
  · have hget : (ts ++ deferTask w :: us).get? ts.length = some (deferTask w) := by
      rw [List.get?_append_right (Nat.le_refl _)]
      simp
    have h := drainTrace_get_start (ts ++ deferTask w :: us) t0 ts.length (deferTask w) hget
    rw [h, startTime_append t0 ts (deferTask w :: us)]
    rfl
  · intro k t hk
    have hklt : k < ts.length := List.get?_eq_some.mp hk |>.1
    have hget : (ts ++ deferTask w :: us).get? k = some t := by
      rw [List.get?_append hklt]
      exact hk
    have h := drainTrace_get_settle (ts ++ deferTask w :: us) t0 k t hget
    rw [startTime_front t0 ts (deferTask w :: us) k (Nat.le_of_lt hklt)] at h
    refine ⟨h, ?_⟩
    rw [settleEvent_time, ← startTime_succ_get ts t0 k t hk, startTime]
    have := sum_take_le (ts.map Task.delay) (k + 1)
    omega
  · rw [startTime_append t0 ts (deferTask w :: us), startTime_append t0 ts [deferTask w]]

/-- Concrete check of C8: with one 40 ms Task pending at the defer call and a
later chain enqueuing another Task, the deferred Task starts at position 2 at
time 40, after the pending Task settled, and its start time ignores the later
chain. -/
theorem defer_captured_barrier_witness :
    (drainTrace 0 ([Task.mk "wait" [] 40 false []] ++ deferTask [("y", "1")] :: [Task.mk "text" ["z"] 0 false []])).get? 2
        = some (Event.mk (0 + ([Task.mk "wait" [] 40 false []].map Task.delay).sum) Phase.start "defer" [])
  ∧ (settleEvent (startTime 0 [Task.mk "wait" [] 40 false []] 0) (Task.mk "wait" [] 40 false [])).time
        ≤ 0 + ([Task.mk "wait" [] 40 false []].map Task.delay).sum := by
  have h := defer_captured_barrier 0 [Task.mk "wait" [] 40 false []]
    [Task.mk "text" ["z"] 0 false []] [("y", "1")]
  exact ⟨h.1, (h.2.1 0 (Task.mk "wait" [] 40 false []) rfl).2⟩

theorem cycleAssign_get (orig : List String) :
    ∀ (ms : List String) (j i : Nat) (m r : String),
      j ≤ orig.length → ms.get? i = some m →
      orig.get? ((j + i) % orig.length) = some r →
      (cycleAssign orig (orig.drop j) ms).get? i = some (m, r) := by
  intro ms
  induction ms with
  | nil => intro j i m r hj hm hr; simp at hm
  | cons m0 ms ih =>
    intro j i m r hj hm hr
    have hlen : 0 < orig.length := by
      rcases Nat.eq_zero_or_pos orig.length with h0 | h0
      · rw [List.length_eq_zero] at h0
        subst h0
        simp at hr
      · exact h0
    by_cases hje : j = orig.length
    · subst hje
      rw [List.drop_length]
      obtain ⟨r0, rs0, horig⟩ := List.exists_cons_of_ne_nil (List.length_pos.mp hlen)
      subst horig
      cases i with
      | zero =>
        simp only [List.get?_cons_zero, Option.some.injEq] at hm
        rw [Nat.add_zero, Nat.mod_self] at hr
        simp only [List.get?_cons_zero, Option.some.injEq] at hr
        subst hm
        subst hr
        simp [cycleAssign]
      | succ i' =>
        simp only [List.get?_cons_succ] at hm
        have e1 : ((r0 :: rs0).length + (i' + 1)) % (r0 :: rs0).length
            = (1 + i') % (r0 :: rs0).length := by
          rw [Nat.add_mod_left, Nat.add_comm 1 i']
        rw [e1] at hr
        have h := ih 1 i' m r (by simp) hm hr
        simpa [cycleAssign] using h
    · have hjlt : j < orig.length := Nat.lt_of_le_of_ne hj hje
      rw [List.drop_eq_getElem_cons hjlt]
      cases i with
      | zero =>
        simp only [List.get?_cons_zero, Option.some.injEq] at hm
        rw [Nat.add_zero, Nat.mod_eq_of_lt hjlt] at hr
        rw [List.get?_eq_getElem?, List.getElem?_eq_getElem hjlt] at hr
        simp only [Option.some.injEq] at hr
        subst hm
        subst hr
        simp [cycleAssign]
      | succ i' =>
        simp only [List.get?_cons_succ] at hm
        have e1 : j + (i' + 1) = j + 1 + i' := by omega
        rw [e1] at hr
        have h := ih (j + 1) i' m r hjlt hm hr
        simpa [cycleAssign] using h

theorem removeAssign_get_lt :
    ∀ (ms reps : List String) (i : Nat) (m r : String),
      ms.get? i = some m → reps.get? i = some r →
      (removeAssign reps ms).get? i = some (m, BecomeOutcome.replacedWith r) := by
  intro ms
  induction ms with
  | nil => intro reps i m r hm hr; simp at hm
  | cons m0 ms ih =>
    intro reps i m r hm hr
    cases reps with
    | nil => simp at hr
    | cons r0 rs =>
      cases i with
      | zero =>
        simp only [List.get?_cons_zero, Option.some.injEq] at hm hr
        subst hm
        subst hr
        rfl
      | succ i' =>
        simp only [List.get?_cons_succ] at hm hr
        simpa [removeAssign] using ih rs i' m r hm hr

theorem removeAssign_get_ge :
    ∀ (ms reps : List String) (i : Nat) (m : String),
      ms.get? i = some m → reps.length ≤ i →
      (removeAssign reps ms).get? i = some (m, BecomeOutcome.removed) := by
  intro ms
  induction ms with
  | nil => intro reps i m hm _; simp at hm
  | cons m0 ms ih =>
    intro reps i m hm hi
    cases reps with
    | nil =>
      cases i with
      | zero =>
        simp only [List.get?_cons_zero, Option.some.injEq] at hm
        subst hm
        rfl
      | succ i' =>
        simp only [List.get?_cons_succ] at hm
        simpa [removeAssign] using ih [] i' m hm (by simp)
    | cons r0 rs =>
      cases i with
      | zero => simp at hi
      | succ i' =>
        simp only [List.get?_cons_succ] at hm
        simpa [removeAssign] using ih rs i' m hm (by simpa using hi)

/-- C9: for become on a collection with fewer replacements than members, the
cycle policy replaces member i with replacement (i mod |reps|) — reusing the
replacements cyclically from index 0 for the overflow members — and the
remove policy replaces the first |reps| members positionally and removes
every member without a corresponding replacement from the DOM. -/
theorem become_cycle_remove (members reps : List String)
    (hne : reps ≠ []) (hlen : reps.length < members.length) :
    (∀ (i : Nat) (m r : String),
        members.get? i = some m → reps.get? (i % reps.length) = some r →
        (become members reps MatchPolicy.cycle).get? i
          = some (m, BecomeOutcome.replacedWith r))
  ∧ (∀ (i : Nat) (m r : String), i < reps.length →
        members.get? i = some m → reps.get? i = some r →
        (become members reps MatchPolicy.remove).get? i
          = some (m, BecomeOutcome.replacedWith r))
  ∧ (∀ (i : Nat) (m : String), reps.length ≤ i → members.get? i = some m →
        (become members reps MatchPolicy.remove).get? i
          = some (m, BecomeOutcome.removed)) := by
  refine ⟨?_, ?_, ?_⟩
  · intro i m r hm hr
    have h := cycleAssign_get reps members 0 i m r (Nat.zero_le _) hm (by simpa using hr)
    rw [show cycleAssign reps (reps.drop 0) members = cycleAssign reps reps members from rfl] at h
    show ((cycleAssign reps reps members).map
        (fun p => (p.1, BecomeOutcome.replacedWith p.2))).get? i
      = some (m, BecomeOutcome.replacedWith r)
    rw [List.get?_map, h]
    rfl
  · intro i m r hi hm hr
    exact removeAssign_get_lt members reps i m r hm hr
  · intro i m hi hm
    exact removeAssign_get_ge members reps i m hm hi

/-- Concrete check of C9 on three members and two replacements: under cycle
the third member reuses the first replacement, under remove it is removed. -/
theorem become_cycle_remove_witness :
    (become ["a", "b", "c"] ["r", "s"] MatchPolicy.cycle).get? 2
        = some ("c", BecomeOutcome.replacedWith "r")
  ∧ (become ["a", "b", "c"] ["r", "s"] MatchPolicy.remove).get? 1
        = some ("b", BecomeOutcome.replacedWith "s")
  ∧ (become ["a", "b", "c"] ["r", "s"] MatchPolicy.remove).get? 2
        = some ("c", BecomeOutcome.removed) := by
  have h := become_cycle_remove ["a", "b", "c"] ["r", "s"] (by decide) (by decide)
  exact ⟨h.1 2 "c" "r" rfl (by decide), h.2.1 1 "b" "s" (by decide) rfl rfl,
    h.2.2 2 "c" (by decide) rfl⟩

theorem count_filter_ne_self (e : String) (l : List String) :
    (l.filter (fun c => c != e)).count e = 0 := by
  rw [List.count_eq_zero]
  intro h
  have h2 := (List.mem_filter.mp h).2
  simp at h2

theorem count_filter_ne_other (e x : String) (hx : e ≠ x) (l : List String) :
    (l.filter (fun c => c != x)).count e = l.count e := by
  induction l with
  | nil => rfl
  | cons a l ih =>
    by_cases ha : a = x
    · subst ha
      rw [List.filter_cons_of_neg (by simp), List.count_cons_of_ne hx]
      exact ih
    · rw [List.filter_cons_of_pos (by simp [ha])]
      by_cases hae : a = e
      · subst hae
        rw [List.count_cons_self, List.count_cons_self, ih]
      · rw [List.count_cons_of_ne (Ne.symm hae), List.count_cons_of_ne (Ne.symm hae), ih]

theorem domCount_cons (e : String) (pc : String × List String) (d : Dom) :
    domCount e (pc :: d) = pc.2.count e + domCount e d := by
  simp [domCount]

theorem appendChild_cons (p e : String) (pc : String × List String) (d : Dom) :
    appendChild p e (pc :: d)
      = (if pc.1 = p then (pc.1, pc.2.filter (fun c => c != e) ++ [e])
         else (pc.1, pc.2.filter (fun c => c != e))) :: appendChild p e d := rfl

theorem domCount_appendChild_self (p e : String) (d : Dom) :
    domCount e (appendChild p e d) = (domKeys d).count p := by
  induction d with
  | nil => rfl
  | cons pc d ih =>
    by_cases hp : pc.1 = p
    · rw [appendChild_cons, if_pos hp, domCount_cons]
      have h1 : ((pc.2.filter (fun c => c != e)) ++ [e]).count e = 1 := by
        rw [List.count_append, count_filter_ne_self, List.count_singleton]
        simp
      rw [h1, ih, show domKeys (pc :: d) = pc.1 :: domKeys d from rfl, hp,
        List.count_cons_self]
      omega
    · rw [appendChild_cons, if_neg hp, domCount_cons]
      rw [show ((pc.1, pc.2.filter (fun c => c != e)) : String × List String).2
            = pc.2.filter (fun c => c != e) from rfl]
      rw [count_filter_ne_self, ih, show domKeys (pc :: d) = pc.1 :: domKeys d from rfl,
        List.count_cons_of_ne (Ne.symm hp)]
      omega

theorem domCount_appendChild_other (p e x : String) (hx : e ≠ x) (d : Dom) :
    domCount e (appendChild p x d) = domCount e d := by
  induction d with
  | nil => rfl
  | cons pc d ih =>
    have hsing : List.count e [x] = 0 := List.count_eq_zero.mpr (by simp [hx])
    by_cases hp : pc.1 = p
    · rw [appendChild_cons, if_pos hp, domCount_cons, List.count_append,
        count_filter_ne_other e x hx, hsing, domCount_cons e pc d, ih]
      omega
    · rw [appendChild_cons, if_neg hp, domCount_cons]
      rw [show ((pc.1, pc.2.filter (fun c => c != x)) : String × List String).2
            = pc.2.filter (fun c => c != x) from rfl]
      rw [count_filter_ne_other e x hx, domCount_cons e pc d, ih]

theorem domKeys_detach (e : String) (d : Dom) : domKeys (detach e d) = domKeys d := by
  rw [domKeys, detach, List.map_map]
  rfl

theorem domKeys_appendChild (p e : String) (d : Dom) :
    domKeys (appendChild p e d) = domKeys d := by
  induction d with
  | nil => rfl
  | cons pc d ih =>
    rw [appendChild_cons]
    by_cases hp : pc.1 = p
    · rw [if_pos hp,
        show domKeys ((pc.1, pc.2.filter (fun c => c != e) ++ [e]) :: appendChild p e d)
          = pc.1 :: domKeys (appendChild p e d) from rfl, ih]
      rfl
    · rw [if_neg hp,
        show domKeys ((pc.1, pc.2.filter (fun c => c != e)) :: appendChild p e d)
          = pc.1 :: domKeys (appendChild p e d) from rfl, ih]
      rfl

theorem mem_childrenOf_iff (e p : String) (d : Dom) :
    e ∈ childrenOf p d ↔ ∃ cs, (p, cs) ∈ d ∧ e ∈ cs := by
  rw [childrenOf, List.mem_flatten]
  constructor
  · rintro ⟨l, hl, hel⟩
    rw [List.mem_filterMap] at hl
    obtain ⟨pc, hpc, hf⟩ := hl
    by_cases hp : pc.1 = p
    · rw [if_pos hp] at hf
      injection hf with hf
      refine ⟨pc.2, ?_, by rw [hf]; exact hel⟩
      have h3 : (p, pc.2) = pc := by
        rw [← hp]
      rw [h3]
      exact hpc
    · rw [if_neg hp] at hf
      cases hf
  · rintro ⟨cs, hmem, hecs⟩
    refine ⟨cs, ?_, hecs⟩
    rw [List.mem_filterMap]
    exact ⟨(p, cs), hmem, by simp⟩

theorem mem_childrenOf_appendChild_self (p e : String) (d : Dom)
    (hp : p ∈ domKeys d) : e ∈ childrenOf p (appendChild p e d) := by
  rw [mem_childrenOf_iff]
  rw [domKeys, List.mem_map] at hp
  obtain ⟨pc, hpc, hfst⟩ := hp
  refine ⟨pc.2.filter (fun c => c != e) ++ [e], ?_, by simp⟩
  rw [appendChild, List.mem_map]
  refine ⟨(pc.1, pc.2.filter (fun c => c != e)), ?_, by simp [hfst]⟩
  rw [detach, List.mem_map]
  exact ⟨pc, hpc, rfl⟩

theorem mem_childrenOf_appendChild_other (L q e x : String) (hx : e ≠ x) (d : Dom)
    (h : e ∈ childrenOf L d) : e ∈ childrenOf L (appendChild q x d) := by
  rw [mem_childrenOf_iff] at h
  obtain ⟨cs, hmem, hecs⟩ := h
  rw [mem_childrenOf_iff]
  by_cases hLq : L = q
  · refine ⟨cs.filter (fun c => c != x) ++ [x], ?_, ?_⟩
    · rw [appendChild, List.mem_map]
      refine ⟨(L, cs.filter (fun c => c != x)), ?_, by simp [hLq]⟩
      rw [detach, List.mem_map]
      exact ⟨(L, cs), hmem, rfl⟩
    · simp [List.mem_filter, hecs, hx]
  · refine ⟨cs.filter (fun c => c != x), ?_, ?_⟩
    · rw [appendChild, List.mem_map]
      refine ⟨(L, cs.filter (fun c => c != x)), ?_, by simp [hLq]⟩
      rw [detach, List.mem_map]
      exact ⟨(L, cs), hmem, rfl⟩
    · simp [List.mem_filter, hecs, hx]

theorem domKeys_moveToAll (x : String) (ps : List String) :
    ∀ d : Dom, domKeys (moveToAll x ps d) = domKeys d := by
  induction ps with
  | nil => intro d; rfl
  | cons q qs ih =>
    intro d
    show domKeys (moveToAll x qs (appendChild q x d)) = domKeys d
    rw [ih (appendChild q x d), domKeys_appendChild]

theorem domCount_moveToAll_other (e x : String) (hx : e ≠ x) (ps : List String) :
    ∀ d : Dom, domCount e (moveToAll x ps d) = domCount e d := by
  induction ps with
  | nil => intro d; rfl
  | cons q qs ih =>
    intro d
    show domCount e (moveToAll x qs (appendChild q x d)) = domCount e d
    rw [ih (appendChild q x d), domCount_appendChild_other q e x hx d]

theorem mem_childrenOf_moveToAll_other (L e x : String) (hx : e ≠ x) (ps : List String) :
    ∀ d : Dom, e ∈ childrenOf L d → e ∈ childrenOf L (moveToAll x ps d) := by
  induction ps with
  | nil => intro d h; exact h
  | cons q qs ih =>
    intro d h
    show e ∈ childrenOf L (moveToAll x qs (appendChild q x d))
    exact ih (appendChild q x d) (mem_childrenOf_appendChild_other L q e x hx d h)

theorem domKeys_collectionMoveTo (ps : List String) (es : List String) :
    ∀ d : Dom, domKeys (collectionMoveTo es ps d) = domKeys d := by
  induction es with
  | nil => intro d; rfl
  | cons x xs ih =>
    intro d
    show domKeys (collectionMoveTo xs ps (moveToAll x ps d)) = domKeys d
    rw [ih (moveToAll x ps d), domKeys_moveToAll]

theorem moveToAll_last (e lastP : String) (ps : List String)
    (hlast : ps.getLast? = some lastP) :
    ∀ d : Dom, lastP ∈ domKeys d → (domKeys d).Nodup →
      domCount e (moveToAll e ps d) = 1 ∧ e ∈ childrenOf lastP (moveToAll e ps d) := by
  obtain ⟨qs, rfl⟩ : ∃ qs, ps = qs ++ [lastP] :=
    ⟨ps.dropLast, (List.dropLast_append_getLast? lastP hlast).symm⟩
  intro d hmem hnd
  have hfold : moveToAll e (qs ++ [lastP]) d = appendChild lastP e (moveToAll e qs d) := by
    show List.foldl (fun acc q => appendChild q e acc) d (qs ++ [lastP]) = _
    rw [List.foldl_concat]
    rfl
  rw [hfold]
  have hkeys : domKeys (moveToAll e qs d) = domKeys d := domKeys_moveToAll e qs d
  constructor
  · rw [domCount_appendChild_self, hkeys]
    exact List.count_eq_one_of_mem hnd hmem
  · exact mem_childrenOf_appendChild_self lastP e (moveToAll e qs d)
      (by rw [hkeys]; exact hmem)

theorem collectionMoveTo_mem (e lastP : String) (ps : List String)
    (hlast : ps.getLast? = some lastP) :
    ∀ es : List String, e ∈ es → ∀ d : Dom, lastP ∈ domKeys d → (domKeys d).Nodup →
      domCount e (collectionMoveTo es ps d) = 1
      ∧ e ∈ childrenOf lastP (collectionMoveTo es ps d) := by
  intro es
  induction es using List.reverseRecOn with
  | nil => intro h; simp at h
  | append_singleton fs x ih =>
    intro he d hmem hnd
    have hfold : collectionMoveTo (fs ++ [x]) ps d
        = moveToAll x ps (collectionMoveTo fs ps d) := by
      show List.foldl (fun acc m => moveToAll m ps acc) d (fs ++ [x]) = _
      rw [List.foldl_concat]
      rfl
    rw [hfold]
    by_cases hxe : x = e
    · subst hxe
      exact moveToAll_last x lastP ps hlast (collectionMoveTo fs ps d)
        (by rw [domKeys_collectionMoveTo]; exact hmem)
        (by rw [domKeys_collectionMoveTo]; exact hnd)
    · have hefs : e ∈ fs := by
        rcases List.mem_append.mp he with h | h
        · exact h
        · simp at h
          exact absurd h.symm hxe
      have hih := ih hefs d hmem hnd
      refine ⟨?_, ?_⟩
      · rw [domCount_moveToAll_other e x (Ne.symm hxe) ps _, hih.1]
      · exact mem_childrenOf_moveToAll_other lastP e x (Ne.symm hxe) ps _ hih.2

/-- C10: a moveTo with all: true never duplicates the moved element — after
the move it occurs exactly once in the DOM, as a child of the last element
matching the parent selector; and the same holds for every member of a
collection moved by the collection's moveTo. -/
theorem moveTo_single_destination (d : Dom) (ps : List String) (lastP : String)
    (hlast : ps.getLast? = some lastP) (hmem : lastP ∈ domKeys d)
    (hnd : (domKeys d).Nodup) (e : String) (es : List String) (he : e ∈ es) :
    (domCount e (moveToAll e ps d) = 1 ∧ e ∈ childrenOf lastP (moveToAll e ps d))
  ∧ (domCount e (collectionMoveTo es ps d) = 1
     ∧ e ∈ childrenOf lastP (collectionMoveTo es ps d)) :=
  ⟨moveToAll_last e lastP ps hlast d hmem hnd,
   collectionMoveTo_mem e lastP ps hlast es he d hmem hnd⟩

/-- Concrete check of C10: an element moved with two matching parents lands
exactly once, under the second parent. -/
theorem moveTo_single_destination_witness :
    (domCount "el" (moveToAll "el" ["p1", "p2"] [("p1", ["el"]), ("p2", [])]) = 1
     ∧ "el" ∈ childrenOf "p2" (moveToAll "el" ["p1", "p2"] [("p1", ["el"]), ("p2", [])]))
  ∧ (domCount "el" (collectionMoveTo ["el"] ["p1", "p2"] [("p1", ["el"]), ("p2", [])]) = 1
     ∧ "el" ∈ childrenOf "p2" (collectionMoveTo ["el"] ["p1", "p2"] [("p1", ["el"]), ("p2", [])])) :=
  moveTo_single_destination [("p1", ["el"]), ("p2", [])] ["p1", "p2"] "p2" (by decide)
    (by decide) (by decide) "el" ["el"] (by decide)

end JessQuery
